import Mathlib

/-!
Verification of the design-variable registry and optimization-interface layer
of `pyWeight_problem.py` (classes `WeightProblem`, `FuelCase`, `fuelCaseDV`).

Python values are embedded as follows: floats become `ℚ` (the module only
adds, subtracts and stores them), strings stay `String`, a Python `dict`
becomes an insertion-ordered association list `Dict β` with last-write-wins
update (`Dict.update` replaces the entry in place, as CPython does), and a
raised `Error` becomes the `Except.error` branch of an `Except String`
result.  `str.lower()` is embedded as the character-wise `pyLower`.
-/

namespace PyWeight

/-- Insertion-ordered string-keyed mapping, the embedding of a Python `dict`. -/
abbrev Dict (β : Type) : Type := List (String × β)

/-- Lookup, `d[k]` / `k in d` of a Python dict (first entry with the key). -/
def Dict.find {β : Type} : Dict β → String → Option β
  | [], _ => none
  | kv :: rest, k => if kv.1 = k then some kv.2 else Dict.find rest k

/-- Assignment `d[k] = v` of a Python dict: replace the entry in place when the
key is present, append it otherwise. -/
def Dict.update {β : Type} : Dict β → String → β → Dict β
  | [], k, v => [(k, v)]
  | kv :: rest, k, v => if kv.1 = k then (k, v) :: rest else kv :: Dict.update rest k v

/-- Key list of the dict, `d.keys()`. -/
def Dict.keys {β : Type} (d : Dict β) : List String :=
  List.map Prod.fst d

theorem Dict.find_update_self {β : Type} (d : Dict β) (k : String) (v : β) :
    Dict.find (Dict.update d k v) k = some v := by
  induction d with
  | nil => simp [Dict.update, Dict.find]
  | cons kv rest ih =>
    obtain ⟨k1, v1⟩ := kv
    by_cases h : k1 = k
    · simp [Dict.update, h, Dict.find]
    · simp [Dict.update, h, Dict.find, ih]

theorem Dict.find_update_ne {β : Type} (d : Dict β) (k : String) (v : β)
    (k' : String) (h : k' ≠ k) :
    Dict.find (Dict.update d k v) k' = Dict.find d k' := by
  induction d with
  | nil => simp [Dict.update, Dict.find, Ne.symm h]
  | cons kv rest ih =>
    obtain ⟨k1, v1⟩ := kv
    by_cases hk : k1 = k
    · subst hk
      simp [Dict.update, Dict.find, Ne.symm h]
    · by_cases hk' : k1 = k'
      · subst hk'
        simp [Dict.update, hk, Dict.find]
      · simp [Dict.update, hk, Dict.find, hk', ih]

theorem Dict.mem_keys_iff_find {β : Type} (d : Dict β) (k : String) :
    k ∈ Dict.keys d ↔ (Dict.find d k).isSome := by
  induction d with
  | nil => simp [Dict.keys, Dict.find]
  | cons kv rest ih =>
    obtain ⟨k1, v1⟩ := kv
    by_cases hk : k1 = k
    · subst hk
      simp [Dict.keys, Dict.find]
    · have hfind : Dict.find ((k1, v1) :: rest) k = Dict.find rest k := by
        simp [Dict.find, hk]
      rw [hfind]
      constructor
      · intro hm
        rcases List.mem_cons.1 (show k ∈ k1 :: Dict.keys rest from hm) with he | he
        · exact absurd he.symm hk
        · exact ih.1 he
      · intro hs
        exact List.mem_cons_of_mem _ (ih.2 hs)

theorem Dict.mem_keys_update {β : Type} (d : Dict β) (k : String) (v : β)
    (k' : String) :
    k' ∈ Dict.keys (Dict.update d k v) ↔ k' = k ∨ k' ∈ Dict.keys d := by
  by_cases h : k' = k
  · subst h
    simp [Dict.mem_keys_iff_find, Dict.find_update_self]
  · simp [Dict.mem_keys_iff_find, Dict.find_update_ne d k v k' h, h]

theorem Dict.keys_update_of_mem {β : Type} (d : Dict β) (k : String) (v : β)
    (h : k ∈ Dict.keys d) :
    Dict.keys (Dict.update d k v) = Dict.keys d := by
  induction d with
  | nil => simp [Dict.keys] at h
  | cons kv rest ih =>
    obtain ⟨k1, v1⟩ := kv
    by_cases hk : k1 = k
    · simp [Dict.update, hk, Dict.keys]
    · have h' : k ∈ Dict.keys rest := by
        rcases List.mem_cons.1 (show k ∈ k1 :: Dict.keys rest from h) with he | he
        · exact absurd he.symm hk
        · exact he
      have hu : Dict.update ((k1, v1) :: rest) k v = (k1, v1) :: Dict.update rest k v := by
        simp [Dict.update, hk]
      rw [hu]
      show k1 :: Dict.keys (Dict.update rest k v) = k1 :: Dict.keys rest
      rw [ih h']

theorem Dict.nodup_keys_update {β : Type} (d : Dict β) (k : String) (v : β)
    (h : (Dict.keys d).Nodup) :
    (Dict.keys (Dict.update d k v)).Nodup := by
  induction d with
  | nil => simp [Dict.update, Dict.keys]
  | cons kv rest ih =>
    obtain ⟨k1, v1⟩ := kv
    simp only [Dict.keys, List.map_cons, List.nodup_cons] at h
    by_cases hk : k1 = k
    · subst hk
      simpa [Dict.update, Dict.keys] using h
    · have hrest := ih h.2
      simp only [Dict.update, if_neg hk, Dict.keys, List.map_cons, List.nodup_cons]
      refine ⟨?_, by simpa [Dict.keys] using hrest⟩
      intro hmem
      rcases (Dict.mem_keys_update rest k v k1).1 (by simpa [Dict.keys] using hmem) with he | he
      · exact hk he
      · exact h.1 (by simpa [Dict.keys] using he)

theorem Dict.find_mem {β : Type} {d : Dict β} {k : String} {v : β}
    (h : Dict.find d k = some v) : (k, v) ∈ d := by
  induction d with
  | nil => simp [Dict.find] at h
  | cons kv rest ih =>
    obtain ⟨k1, v1⟩ := kv
    by_cases hk : k1 = k
    · simp [Dict.find, hk] at h
      subst hk
      subst h
      exact List.mem_cons_self _ _
    · simp [Dict.find, hk] at h
      exact List.mem_cons_of_mem _ (ih h)

theorem Dict.find_split {β : Type} {d : Dict β} {k : String} {v : β}
    (h : Dict.find d k = some v) :
    ∃ l1 l2, d = l1 ++ (k, v) :: l2 ∧ ∀ kv ∈ l1, kv.1 ≠ k := by
  induction d with
  | nil => simp [Dict.find] at h
  | cons kv rest ih =>
    obtain ⟨k1, v1⟩ := kv
    by_cases hk : k1 = k
    · simp [Dict.find, hk] at h
      subst hk
      subst h
      exact ⟨[], rest, rfl, by simp⟩
    · simp [Dict.find, hk] at h
      obtain ⟨l1, l2, he, hne⟩ := ih h
      refine ⟨(k1, v1) :: l1, l2, by rw [he]; exact (List.cons_append _ _ _).symm, ?_⟩
      intro kv' hkv'
      rcases List.mem_cons.1 hkv' with h' | h'
      · simpa [h'] using hk
      · exact hne kv' h'

theorem Dict.find_eq_none {β : Type} {d : Dict β} {k : String}
    (h : ∀ kv ∈ d, kv.1 ≠ k) : Dict.find d k = none := by
  induction d with
  | nil => simp [Dict.find]
  | cons kv rest ih =>
    have h1 : kv.1 ≠ k := h kv (List.mem_cons_self _ _)
    simp [Dict.find, h1]
    exact ih fun kv' hm => h kv' (List.mem_cons_of_mem _ hm)

theorem Dict.find_singleton {β : Type} (k s : String) (v : β) :
    Dict.find [(k, v)] s = if k = s then some v else none := rfl

theorem Dict.mem_keys {β : Type} {d : Dict β} {k : String} :
    k ∈ Dict.keys d ↔ ∃ v, (k, v) ∈ d := by
  constructor
  · intro h
    obtain ⟨kv, hm, he⟩ := List.mem_map.1 h
    exact ⟨kv.2, by simpa [← he] using hm⟩
  · rintro ⟨v, hm⟩
    exact List.mem_map.2 ⟨(k, v), hm, rfl⟩

/-- Embedding of Python `str.lower()`, character by character.  `Char.toLower`
agrees with CPython on the ASCII identifiers this module lowercases. -/
def pyLower (s : String) : String :=
  String.mk (List.map Char.toLower s.data)

/-- Python `repr` of a string (the module only ever applies it to plain
identifier-like strings, where `repr` wraps the text in single quotes). -/
def pyReprStr (s : String) : String :=
  "'" ++ s ++ "'"

/-- Python `repr` of a list of strings, as `repr(self.possibleDVs)` renders the
whitelist: `['fuelFraction', 'reserveFraction']`. -/
def pyReprList (l : List String) : String :=
  "[" ++ String.intercalate ", " (List.map pyReprStr l) ++ "]"

/-- Message of the `Error` raised by `FuelCase.addDV` (source lines 463-464):
`'The DV \'%s\' could not be added.  The list of possible DVs are: %s.'
% (key, repr(self.possibleDVs))`. -/
def addDVErrMsg (key : String) (possible : List String) : String :=
  "The DV '" ++ (key ++ ("' could not be added.  The list of possible DVs are: " ++
    (pyReprList possible ++ ".")))

/-- Record stored per design variable of a fuel case, class `fuelCaseDV`
(source lines 525-536). -/
structure fuelCaseDV where
  key : String
  value : ℚ
  lower : Option ℚ
  upper : Option ℚ
  scale : ℚ
  offset : ℚ
  addToPyOpt : Bool
deriving DecidableEq

/-- State of a `FuelCase` object (source lines 378-408).  `DVs` maps the
fully-qualified dv name to its record, `DVNames` maps the local key
(`fuelFraction` / `reserveFraction`) to that dv name, exactly as in
`__init__`/`addDV`. -/
structure FuelCase where
  name : String
  fuelFraction : ℚ
  reserveFraction : ℚ
  DVs : Dict fuelCaseDV
  DVNames : Dict String
  possibleDVs : List String
deriving DecidableEq

/-- Constructor `FuelCase.__init__` (source lines 382-408); Python defaults are
`fuelFraction=.9`, `reserveFraction=.1`. -/
def FuelCase.init (name : String) (fuelFraction : ℚ) (reserveFraction : ℚ) : FuelCase :=
  { name := name
    fuelFraction := fuelFraction
    reserveFraction := reserveFraction
    DVs := []
    DVNames := []
    possibleDVs := ["fuelFraction", "reserveFraction"] }

/-- Python `getattr(self, key)` on a fuel case.  `addDV` only reaches this with
a whitelisted key, for which the attribute exists; other keys would raise
`AttributeError` in Python and are given a dummy value here. -/
def FuelCase.getAttr (c : FuelCase) (key : String) : ℚ :=
  if key = "fuelFraction" then c.fuelFraction
  else if key = "reserveFraction" then c.reserveFraction
  else 0

/-- Python `setattr(self, key, v)` on a fuel case.  The keys that reach this
call come from `DVNames`, whose entries `addDV` restricts to the whitelist; a
non-whitelisted key would create a fresh attribute no other code reads, so it
is dropped here. -/
def FuelCase.setAttr (c : FuelCase) (key : String) (v : ℚ) : FuelCase :=
  if key = "fuelFraction" then { c with fuelFraction := v }
  else if key = "reserveFraction" then { c with reserveFraction := v }
  else c

/-- Fully-qualified dv name computed by `FuelCase.addDV` (source lines
466-472): `name` overrides the default `'%s_' % self.name + key`, and a given
`axis` appends `'_%s' % axis`. -/
def dvNameOf (caseName key : String) (nameArg : Option String) (axis : Option String) : String :=
  let base :=
    match nameArg with
    | none => caseName ++ "_" ++ key
    | some n => n
  match axis with
  | none => base
  | some a => base ++ "_" ++ a

/-- Method `FuelCase.addDV` (source lines 410-478).  The whitelist check comes
first, so a raised `Error` (the `Except.error` branch) leaves the case exactly
as it was; on success both `DVs[dvName]` and `DVNames[key]` are written. -/
def FuelCase.addDV (c : FuelCase) (key : String) (value : Option ℚ)
    (lower : Option ℚ) (upper : Option ℚ) (scale : ℚ) (nameArg : Option String)
    (offset : ℚ) (axis : Option String) (addToPyOpt : Bool) :
    Except String FuelCase :=
  if key ∉ c.possibleDVs then
    Except.error (addDVErrMsg key c.possibleDVs)
  else
    let dvName := dvNameOf c.name key nameArg axis
    let v :=
      match value with
      | none => FuelCase.getAttr c key
      | some w => w
    Except.ok
      { c with
        DVs := Dict.update c.DVs dvName
          { key := key, value := v, lower := lower, upper := upper,
            scale := scale, offset := offset, addToPyOpt := addToPyOpt }
        DVNames := Dict.update c.DVNames key dvName }

/-- Loop body of `FuelCase.setDesignVars` (source lines 492-496): for a
`DVNames` entry `(key, dvName)` with `dvName` present in `x`, set the attribute
`key` to `x[dvName] + self.DVs[dvName].offset` and store `x[dvName]` as the
dv's value.  A `dvName` missing from `DVs` would be a `KeyError` in Python; it
is unreachable for cases built through `addDV` and leaves the case unchanged
here. -/
def sdvStep (x : Dict ℚ) (acc : FuelCase) (kv : String × String) : FuelCase :=
  match Dict.find x kv.2 with
  | none => acc
  | some v =>
    match Dict.find acc.DVs kv.2 with
    | none => acc
    | some dv =>
      let acc2 := FuelCase.setAttr acc kv.1 (v + dv.offset)
      { acc2 with DVs := Dict.update acc2.DVs kv.2 { dv with value := v } }

/-- Method `FuelCase.setDesignVars` (source lines 481-496): iterate over
`DVNames` applying `sdvStep`. -/
def FuelCase.setDesignVars (c : FuelCase) (x : Dict ℚ) : FuelCase :=
  List.foldl (sdvStep x) c c.DVNames

/-- Argument record of one `optProb.addCon` call (the optimizer problem is an
external collaborator; `addLinearConstraint` calls it at most once, so the
emitted constraint is an `Option LinearCon`). -/
structure LinearCon where
  name : String
  lower : ℚ
  upper : ℚ
  scale : ℚ
  linear : Bool
  wrt : List String
  jac : Dict (List (List ℚ))
deriving DecidableEq

/-- Method `FuelCase.addLinearConstraint` (source lines 498-519): scan
`DVNames` for the two fraction keys (case-insensitively) and emit one of the
three constraint shapes, or none. -/
def FuelCase.addLinearConstraint (c : FuelCase) (pfx : String) : Option LinearCon :=
  let fuelDV := List.any c.DVNames fun kv => pyLower kv.1 = "fuelfraction"
  let reserveDV := List.any c.DVNames fun kv => pyLower kv.1 = "reservefraction"
  let conName := pfx ++ "_" ++ c.name ++ "_fuelcase"
  let var1Name := pfx ++ "_" ++ c.name ++ "_fuelFraction"
  let var2Name := pfx ++ "_" ++ c.name ++ "_reserveFraction"
  if reserveDV && fuelDV then
    some { name := conName, lower := 0, upper := 1, scale := 1, linear := true,
           wrt := [var1Name, var2Name],
           jac := [(var1Name, [[1]]), (var2Name, [[1]])] }
  else if reserveDV then
    some { name := conName, lower := 0, upper := 1 - c.fuelFraction, scale := 1,
           linear := true, wrt := [var2Name], jac := [(var2Name, [[1]])] }
  else if fuelDV then
    some { name := conName, lower := 0, upper := 1 - c.reserveFraction, scale := 1,
           linear := true, wrt := [var1Name], jac := [(var1Name, [[1]])] }
  else
    none

/-- Modelled from the spec: the per-component design-variable record.  The
Component class is an external collaborator (spec section 1); `addComponents`
only reads `comp.DVs[dvName].value` from it. -/
structure compDV where
  value : ℚ
deriving DecidableEq

/-- Modelled from the spec: a Component is opaque, exposing `name`, `compType`,
`DVs`, `setUnitSystem`, `setDesignVars` (spec sections 1 and 6).  `units`
records the unit system `setUnitSystem` stores on the object. -/
structure Component where
  name : String
  compType : String
  units : String
  DVs : Dict compDV
deriving DecidableEq

/-- Modelled from the spec: `comp.setUnitSystem(units)` transfers the
problem's unit system into the component (spec: "This set of units is
transferred to all components when the are added"); it does not touch the
component's name, type or DVs. -/
def Component.setUnitSystem (c : Component) (units : String) : Component :=
  { c with units := units }

/-- Shape of a Python argument as the `type(x) == list` / `type(x) == object`
checks in `addComponents`/`addFuelCases` see it: a `list` of entities, a
single entity instance (whose `type` is its own class — neither `list` nor
`object`), or a value of any other type.  A direct `object()` instance (the
only value with `type(x) == object`) has none of the attributes the
registration loop needs and cannot be a component or fuel case, so it is
folded into `other`. -/
inductive PyVal (α : Type) where
  | list : List α → PyVal α
  | entity : α → PyVal α
  | other : PyVal α

/-- State of a `WeightProblem` object (source lines 66-82). -/
structure WeightProblem where
  name : String
  units : String
  components : Dict Component
  fuelcases : List FuelCase
  currentDVs : Dict ℚ
  evalFuncs : List String
  solveFailed : Bool
deriving DecidableEq

/-- Constructor `WeightProblem.__init__` (source lines 66-82):
`self.units = units.lower()`, empty registries. -/
def WeightProblem.init (name units : String) (evalFuncs : List String) : WeightProblem :=
  { name := name
    units := pyLower units
    components := []
    fuelcases := []
    currentDVs := []
    evalFuncs := evalFuncs
    solveFailed := false }

/-- Registration of one component inside the `addComponents` loop (source
lines 98-104): propagate the unit system, upsert into `components` keyed by
the component's name, and cache every dv value under
`self.name + '_' + dvName`. -/
def WeightProblem.registerComponent (p : WeightProblem) (c0 : Component) : WeightProblem :=
  let c := Component.setUnitSystem c0 p.units
  { p with
    components := Dict.update p.components c.name c
    currentDVs := List.foldl
      (fun cur kv => Dict.update cur (p.name ++ "_" ++ kv.1) kv.2.value)
      p.currentDVs c.DVs }

/-- Method `WeightProblem.addComponents` (source lines 84-107).  The guard is
`type(components) == list` / `elif type(components) == object`: a bare
Component instance satisfies neither (its `type` is its class, not `object`),
so every non-list argument reaches the `raise Error(...)` branch. -/
def WeightProblem.addComponents (p : WeightProblem) (components : PyVal Component) :
    Except String WeightProblem :=
  match components with
  | PyVal.list cs => Except.ok (List.foldl WeightProblem.registerComponent p cs)
  | _ => Except.error "addComponents() takes in either a list of or a single component"

/-- Registration of one fuel case inside the `addFuelCases` loop (source lines
223-229): append to `fuelcases`, cache every dv value. -/
def WeightProblem.registerFuelCase (p : WeightProblem) (c : FuelCase) : WeightProblem :=
  { p with
    fuelcases := p.fuelcases ++ [c]
    currentDVs := List.foldl
      (fun cur kv => Dict.update cur (p.name ++ "_" ++ kv.1) kv.2.value)
      p.currentDVs c.DVs }

/-- Method `WeightProblem.addFuelCases` (source lines 209-230), with the same
`type(cases) == list` / `type(cases) == object` guard as `addComponents`. -/
def WeightProblem.addFuelCases (p : WeightProblem) (cases : PyVal FuelCase) :
    Except String WeightProblem :=
  match cases with
  | PyVal.list cs => Except.ok (List.foldl WeightProblem.registerFuelCase p cs)
  | _ => Except.error "addFuelCases() takes in either a list of or a single fuelcase"

/-- Map over a list while threading a state through, the shape of a Python
loop that mutates both the iterated objects and a shared cache. -/
def mapThread {α σ : Type} (f : α → σ → α × σ) : List α → σ → List α × σ
  | [], s => ([], s)
  | a :: rest, s =>
    let p := f a s
    let q := mapThread f rest p.2
    (p.1 :: q.1, q.2)

/-- Inner loop body of `WeightProblem.setDesignVars` over one component's dv
keys (source lines 129-136): when `self.name + '_' + key` is in `x`, push
`{key: x[dvName]}` into the component and write the cache.  The component's
own `setDesignVars` is external, so it is a parameter `compSet`. -/
def compLoopBody (compSet : Component → Dict ℚ → Component) (pname : String)
    (x : Dict ℚ) (acc : Component × Dict ℚ) (kv : String × compDV) :
    Component × Dict ℚ :=
  let dvName := pname ++ "_" ++ kv.1
  match Dict.find x dvName with
  | some v => (compSet acc.1 [(kv.1, v)], Dict.update acc.2 dvName v)
  | none => acc

/-- Loop of `setDesignVars` over one component (source lines 127-136),
threading the `currentDVs` cache. -/
def compLoop (compSet : Component → Dict ℚ → Component) (pname : String)
    (x : Dict ℚ) (c : Component) (cur : Dict ℚ) : Component × Dict ℚ :=
  List.foldl (compLoopBody compSet pname x) (c, cur) c.DVs

/-- Inner loop body of `WeightProblem.setDesignVars` over one fuel case's dv
keys (source lines 139-146): `case.DVs` is keyed by dv name, so `key` here is
a dv name, `xTmp = {key: x[dvName]}` and `case.setDesignVars(xTmp)`. -/
def caseLoopBody (pname : String) (x : Dict ℚ) (acc : FuelCase × Dict ℚ)
    (kv : String × fuelCaseDV) : FuelCase × Dict ℚ :=
  let dvName := pname ++ "_" ++ kv.1
  match Dict.find x dvName with
  | some v => (FuelCase.setDesignVars acc.1 [(kv.1, v)], Dict.update acc.2 dvName v)
  | none => acc

/-- Loop of `setDesignVars` over one fuel case (source lines 138-146). -/
def caseLoop (pname : String) (x : Dict ℚ) (c : FuelCase) (cur : Dict ℚ) :
    FuelCase × Dict ℚ :=
  List.foldl (caseLoopBody pname x) (c, cur) c.DVs

/-- Method `WeightProblem.setDesignVars` (source lines 116-146): the component
loop, then the fuel-case loop, both mutating the iterated entities in place
and the shared `currentDVs` cache; names of `x` not belonging to this problem
are skipped.  The method returns `None` and raises nothing: here it is a
total function on the problem state. -/
def WeightProblem.setDesignVars (compSet : Component → Dict ℚ → Component)
    (p : WeightProblem) (x : Dict ℚ) : WeightProblem :=
  let r1 := mapThread
    (fun kv cur =>
      let q := compLoop compSet p.name x kv.2 cur
      ((kv.1, q.1), q.2))
    p.components p.currentDVs
  let r2 := mapThread (fun c cur => caseLoop p.name x c cur) p.fuelcases r1.2
  { p with components := r1.1, fuelcases := r2.1, currentDVs := r2.2 }

/-- Method `WeightProblem.getVarNames` (source lines 178-195): component dv
names in component order, then fuel-case dv names in registration order, each
prefixed `self.name + '_'`. -/
def WeightProblem.getVarNames (p : WeightProblem) : List String :=
  let names := List.foldl
    (fun ns kv => ns ++ List.map (fun dkv => p.name ++ "_" ++ dkv.1) kv.2.DVs)
    [] p.components
  List.foldl
    (fun ns c => ns ++ List.map (fun dkv => p.name ++ "_" ++ dkv.1) c.DVs)
    names p.fuelcases

/-- Local (unprefixed) dv names of every registered component and fuel case. -/
def WeightProblem.localDVNames (p : WeightProblem) : List String :=
  List.flatten (List.map (fun kv => Dict.keys kv.2.DVs) p.components) ++
    List.flatten (List.map (fun c => Dict.keys c.DVs) p.fuelcases)

/-- Optional filter argument of `_getComponentKeys`: a bare string or a list
of strings. -/
inductive StrFilter where
  | str : String → StrFilter
  | list : List String → StrFilter

/-- Normalization `if type(f) == str: f = [f]` applied to each given filter
(source lines 253-254, 263-264, 270-271, 277-278). -/
def filterList : Option StrFilter → Option (List String)
  | none => none
  | some (StrFilter.str s) => some [s]
  | some (StrFilter.list l) => some l

/-- Component type `self.components[key].compType` (source lines 257, 281);
the looked-up key always comes from `components`. -/
def WeightProblem.compTypeOf (p : WeightProblem) (k : String) : String :=
  match Dict.find p.components k with
  | some c => c.compType
  | none => ""

/-- One optional filtering stage of `_getComponentKeys`: `none` leaves the key
set alone, `some ts` keeps the keys satisfying the test.  Building a new set
from matching keys (`includeType`), `intersection_update` (`include`),
`difference_update` (`exclude`) and copy-and-remove (`excludeType`) are all
membership filters on the key set. -/
def optFilter (o : Option (List String)) (q : String → List String → Bool)
    (l : List String) : List String :=
  match o with
  | none => l
  | some ts => List.filter (fun s => q s ts) l

/-- Method `WeightProblem._getComponentKeys` (source lines 232-285): start
from all component keys, then apply `includeType`, `include`, `exclude`,
`excludeType` in that fixed order. -/
def WeightProblem.getComponentKeys (p : WeightProblem) (incl excl inclType exclType : Option StrFilter) :
    List String :=
  let wk := Dict.keys p.components
  let wk := optFilter (filterList inclType)
    (fun s ts => decide (WeightProblem.compTypeOf p s ∈ ts)) wk
  let wk := optFilter (filterList incl) (fun s ts => decide (s ∈ ts)) wk
  let wk := optFilter (filterList excl) (fun s ts => decide (s ∉ ts)) wk
  optFilter (filterList exclType)
    (fun s ts => decide (WeightProblem.compTypeOf p s ∉ ts)) wk

/-- First projection of `caseLoopBody`: how one fuel-case dv entry updates the
case itself. -/
def caseFstStep (pname : String) (x : Dict ℚ) (c : FuelCase)
    (kv : String × fuelCaseDV) : FuelCase :=
  match Dict.find x (pname ++ "_" ++ kv.1) with
  | some v => FuelCase.setDesignVars c [(kv.1, v)]
  | none => c

/-- Second projection of both loop bodies: how one dv key updates the
`currentDVs` cache. -/
def curStep (pname : String) (x : Dict ℚ) (cur : Dict ℚ) (k : String) : Dict ℚ :=
  match Dict.find x (pname ++ "_" ++ k) with
  | some v => Dict.update cur (pname ++ "_" ++ k) v
  | none => cur

/-- First projection of `compLoopBody`: how one component dv entry updates the
component. -/
def compFstStep (compSet : Component → Dict ℚ → Component) (pname : String)
    (x : Dict ℚ) (c : Component) (kv : String × compDV) : Component :=
  match Dict.find x (pname ++ "_" ++ kv.1) with
  | some v => compSet c [(kv.1, v)]
  | none => c

theorem caseLoopBody_eq (pname : String) (x : Dict ℚ) (acc : FuelCase × Dict ℚ)
    (kv : String × fuelCaseDV) :
    caseLoopBody pname x acc kv =
      (caseFstStep pname x acc.1 kv, curStep pname x acc.2 kv.1) := by
  cases h : Dict.find x (pname ++ "_" ++ kv.1) <;>
    simp [caseLoopBody, caseFstStep, curStep, h]

theorem compLoopBody_eq (compSet : Component → Dict ℚ → Component)
    (pname : String) (x : Dict ℚ) (acc : Component × Dict ℚ)
    (kv : String × compDV) :
    compLoopBody compSet pname x acc kv =
      (compFstStep compSet pname x acc.1 kv, curStep pname x acc.2 kv.1) := by
  cases h : Dict.find x (pname ++ "_" ++ kv.1) <;>
    simp [compLoopBody, compFstStep, curStep, h]

theorem foldl_pair {α β γ : Type} (f : α → γ → α) (g : β → γ → β) :
    ∀ (l : List γ) (a : α) (b : β),
    List.foldl (fun p c => (f p.1 c, g p.2 c)) (a, b) l =
      (List.foldl f a l, List.foldl g b l)
  | [], _, _ => rfl
  | c :: l, a, b => by
    simp only [List.foldl_cons]
    exact foldl_pair f g l (f a c) (g b c)

/-- State of a fuel case after the `setDesignVars` loop has run over it. -/
def FuelCase.afterSetDVs (pname : String) (x : Dict ℚ) (c : FuelCase) : FuelCase :=
  List.foldl (caseFstStep pname x) c c.DVs

/-- State of a component after the `setDesignVars` loop has run over it. -/
def compAfter (compSet : Component → Dict ℚ → Component) (pname : String)
    (x : Dict ℚ) (c : Component) : Component :=
  List.foldl (compFstStep compSet pname x) c c.DVs

/-- State of the `currentDVs` cache after one entity's dv keys were
processed. -/
def curAfterKeys (pname : String) (x : Dict ℚ) (cur : Dict ℚ)
    (ks : List String) : Dict ℚ :=
  List.foldl (curStep pname x) cur ks

theorem caseLoop_eq (pname : String) (x : Dict ℚ) (c : FuelCase) (cur : Dict ℚ) :
    caseLoop pname x c cur =
      (FuelCase.afterSetDVs pname x c, curAfterKeys pname x cur (Dict.keys c.DVs)) := by
  have hb : List.foldl (caseLoopBody pname x) (c, cur) c.DVs =
      List.foldl (fun p kv => (caseFstStep pname x p.1 kv, curStep pname x p.2 kv.1))
        (c, cur) c.DVs := by
    congr 1
    funext p kv
    exact caseLoopBody_eq pname x p kv
  unfold caseLoop
  rw [hb, foldl_pair (caseFstStep pname x) (fun cur kv => curStep pname x cur kv.1) c.DVs c cur]
  unfold FuelCase.afterSetDVs curAfterKeys Dict.keys
  rw [List.foldl_map]

theorem compLoop_eq (compSet : Component → Dict ℚ → Component) (pname : String)
    (x : Dict ℚ) (c : Component) (cur : Dict ℚ) :
    compLoop compSet pname x c cur =
      (compAfter compSet pname x c, curAfterKeys pname x cur (Dict.keys c.DVs)) := by
  have hb : List.foldl (compLoopBody compSet pname x) (c, cur) c.DVs =
      List.foldl (fun p kv => (compFstStep compSet pname x p.1 kv, curStep pname x p.2 kv.1))
        (c, cur) c.DVs := by
    congr 1
    funext p kv
    exact compLoopBody_eq compSet pname x p kv
  unfold compLoop
  rw [hb, foldl_pair (compFstStep compSet pname x) (fun cur kv => curStep pname x cur kv.1) c.DVs c cur]
  unfold compAfter curAfterKeys Dict.keys
  rw [List.foldl_map]

theorem mapThread_eq {α σ : Type} (f : α → σ → α × σ) (m : α → α) (h : α → σ → σ)
    (hf : ∀ a s, f a s = (m a, h a s)) :
    ∀ (l : List α) (s : σ),
    mapThread f l s = (List.map m l, List.foldl (fun s a => h a s) s l)
  | [], _ => rfl
  | a :: l, s => by
    simp only [mapThread, hf a s, List.map_cons, List.foldl_cons]
    rw [mapThread_eq f m h hf l (h a s)]

/-- Full characterization of `WeightProblem.setDesignVars`: each component and
fuel case is mapped through its own loop, and the cache folds through every
dv key of every entity, components first. -/
theorem setDesignVars_eq (compSet : Component → Dict ℚ → Component)
    (p : WeightProblem) (x : Dict ℚ) :
    WeightProblem.setDesignVars compSet p x =
      { p with
        components := List.map (fun kv => (kv.1, compAfter compSet p.name x kv.2)) p.components
        fuelcases := List.map (FuelCase.afterSetDVs p.name x) p.fuelcases
        currentDVs := List.foldl (fun cur c => curAfterKeys p.name x cur (Dict.keys c.DVs))
          (List.foldl (fun cur kv => curAfterKeys p.name x cur (Dict.keys kv.2.DVs))
            p.currentDVs p.components)
          p.fuelcases } := by
  simp only [WeightProblem.setDesignVars]
  rw [mapThread_eq _ (fun kv => (kv.1, compAfter compSet p.name x kv.2))
    (fun kv cur => curAfterKeys p.name x cur (Dict.keys kv.2.DVs))
    (fun kv cur => by simp [compLoop_eq])]
  rw [mapThread_eq _ (FuelCase.afterSetDVs p.name x)
    (fun c cur => curAfterKeys p.name x cur (Dict.keys c.DVs))
    (fun c cur => caseLoop_eq p.name x c cur)]

theorem str_append_cancel {a b c : String} (h : a ++ b = a ++ c) : b = c := by
  have hd : a.data ++ b.data = a.data ++ c.data := by
    simpa [String.data_append] using congrArg String.data h
  exact String.ext (List.append_cancel_left hd)

theorem prefixed_cancel {pname a b : String}
    (h : pname ++ "_" ++ a = pname ++ "_" ++ b) : a = b :=
  str_append_cancel (a := pname ++ "_") (by simpa [String.append_assoc] using h)

theorem setAttr_DVs (c : FuelCase) (k : String) (v : ℚ) :
    (FuelCase.setAttr c k v).DVs = c.DVs := by
  unfold FuelCase.setAttr
  split
  · rfl
  · split <;> rfl

theorem setAttr_DVNames (c : FuelCase) (k : String) (v : ℚ) :
    (FuelCase.setAttr c k v).DVNames = c.DVNames := by
  unfold FuelCase.setAttr
  split
  · rfl
  · split <;> rfl

theorem setAttr_name (c : FuelCase) (k : String) (v : ℚ) :
    (FuelCase.setAttr c k v).name = c.name := by
  unfold FuelCase.setAttr
  split
  · rfl
  · split <;> rfl

theorem setAttr_possibleDVs (c : FuelCase) (k : String) (v : ℚ) :
    (FuelCase.setAttr c k v).possibleDVs = c.possibleDVs := by
  unfold FuelCase.setAttr
  split
  · rfl
  · split <;> rfl

theorem getAttr_setAttr_self (c : FuelCase) (k : String) (v : ℚ)
    (hkey : k = "fuelFraction" ∨ k = "reserveFraction") :
    FuelCase.getAttr (FuelCase.setAttr c k v) k = v := by
  have hne : ("reserveFraction" : String) ≠ "fuelFraction" := by decide
  rcases hkey with h | h <;> subst h <;>
    simp [FuelCase.setAttr, FuelCase.getAttr, hne]

theorem getAttr_setAttr_ne (c : FuelCase) (k1 k2 : String) (v : ℚ)
    (h : k1 ≠ k2) :
    FuelCase.getAttr (FuelCase.setAttr c k1 v) k2 = FuelCase.getAttr c k2 := by
  unfold FuelCase.setAttr FuelCase.getAttr
  by_cases a1 : k1 = "fuelFraction"
  · subst a1
    simp [Ne.symm h]
  · by_cases b1 : k1 = "reserveFraction"
    · subst b1
      simp [a1, Ne.symm h]
    · simp [a1, b1]

theorem sdvStep_ne (d : String) (v2 : ℚ) (acc : FuelCase) (kv : String × String)
    (h : kv.2 ≠ d) : sdvStep [(d, v2)] acc kv = acc := by
  unfold sdvStep
  rw [Dict.find_singleton]
  simp [Ne.symm h]

theorem sdvStep_hit (d : String) (v2 : ℚ) (acc : FuelCase) (k1 : String)
    (dvc : fuelCaseDV) (hdv : Dict.find acc.DVs d = some dvc) :
    sdvStep [(d, v2)] acc (k1, d) =
      { FuelCase.setAttr acc k1 (v2 + dvc.offset) with
        DVs := Dict.update acc.DVs d { dvc with value := v2 } } := by
  unfold sdvStep
  rw [Dict.find_singleton]
  simp [hdv, setAttr_DVs]

theorem sdvStep_frame (x : Dict ℚ) (acc : FuelCase) (kv : String × String) :
    (sdvStep x acc kv).DVNames = acc.DVNames ∧
    (sdvStep x acc kv).name = acc.name ∧
    (sdvStep x acc kv).possibleDVs = acc.possibleDVs := by
  unfold sdvStep
  cases h1 : Dict.find x kv.2 with
  | none => exact ⟨rfl, rfl, rfl⟩
  | some v =>
    cases h2 : Dict.find acc.DVs kv.2 with
    | none => exact ⟨rfl, rfl, rfl⟩
    | some dvv =>
      exact ⟨setAttr_DVNames acc kv.1 (v + dvv.offset),
        setAttr_name acc kv.1 (v + dvv.offset),
        setAttr_possibleDVs acc kv.1 (v + dvv.offset)⟩

theorem sdvStep_getAttr_ne (x : Dict ℚ) (acc : FuelCase) (kv : String × String)
    (k : String) (hne : kv.1 ≠ k) :
    FuelCase.getAttr (sdvStep x acc kv) k = FuelCase.getAttr acc k := by
  unfold sdvStep
  cases h1 : Dict.find x kv.2 with
  | none => rfl
  | some v =>
    cases h2 : Dict.find acc.DVs kv.2 with
    | none => rfl
    | some dvv =>
      exact getAttr_setAttr_ne acc kv.1 k (v + dvv.offset) hne

theorem sdv_fold_frame (x : Dict ℚ) :
    ∀ (l : List (String × String)) (acc : FuelCase),
    (List.foldl (sdvStep x) acc l).DVNames = acc.DVNames ∧
    (List.foldl (sdvStep x) acc l).name = acc.name ∧
    (List.foldl (sdvStep x) acc l).possibleDVs = acc.possibleDVs
  | [], _ => ⟨rfl, rfl, rfl⟩
  | kv :: l, acc => by
    rw [List.foldl_cons]
    obtain ⟨h1, h2, h3⟩ := sdv_fold_frame x l (sdvStep x acc kv)
    obtain ⟨g1, g2, g3⟩ := sdvStep_frame x acc kv
    exact ⟨h1.trans g1, h2.trans g2, h3.trans g3⟩

theorem sdv_fold_dv (d : String) (v2 : ℚ) (dv : fuelCaseDV) :
    ∀ (l : List (String × String)) (acc : FuelCase) (dvc : fuelCaseDV),
    Dict.find acc.DVs d = some dvc →
    ({ dvc with value := v2 } : fuelCaseDV) = { dv with value := v2 } →
    ∃ dvc', Dict.find (List.foldl (sdvStep [(d, v2)]) acc l).DVs d = some dvc' ∧
      ({ dvc' with value := v2 } : fuelCaseDV) = { dv with value := v2 } ∧
      (dvc.value = v2 → dvc'.value = v2)
  | [], _, dvc, h1, h2 => ⟨dvc, h1, h2, fun h => h⟩
  | kv :: l, acc, dvc, h1, h2 => by
    rw [List.foldl_cons]
    by_cases hd : kv.2 = d
    · obtain ⟨k1, d'⟩ := kv
      cases hd
      rw [sdvStep_hit d' v2 acc k1 dvc h1]
      obtain ⟨dvc', hf, hQ, himp⟩ := sdv_fold_dv d' v2 dv l
        ({ FuelCase.setAttr acc k1 (v2 + dvc.offset) with
           DVs := Dict.update acc.DVs d' { dvc with value := v2 } })
        { dvc with value := v2 }
        (Dict.find_update_self acc.DVs d' { dvc with value := v2 })
        h2
      exact ⟨dvc', hf, hQ, fun _ => himp rfl⟩
    · rw [sdvStep_ne d v2 acc kv hd]
      exact sdv_fold_dv d v2 dv l acc dvc h1 h2

theorem sdv_fold_getAttr (x : Dict ℚ) (k : String) :
    ∀ (l : List (String × String)) (acc : FuelCase), (∀ kv ∈ l, kv.1 ≠ k) →
    FuelCase.getAttr (List.foldl (sdvStep x) acc l) k = FuelCase.getAttr acc k
  | [], _, _ => rfl
  | kv :: l, acc, h => by
    rw [List.foldl_cons,
      sdv_fold_getAttr x k l _ (fun kv' hm => h kv' (List.mem_cons_of_mem _ hm)),
      sdvStep_getAttr_ne x acc kv k (h kv (List.mem_cons_self _ _))]

/-- Effect of `FuelCase.setDesignVars` under a one-entry dictionary `{d: v2}`
on a case whose `DVNames` maps the whitelisted key `k` to the dv name `d`:
attribute `k` becomes `v2 + offset`, the dv record keeps every field but its
value, and the bookkeeping fields are untouched. -/
theorem setDesignVars_singleton (c : FuelCase) (k d : String) (dvc dv : fuelCaseDV)
    (v2 : ℚ)
    (hwf : (Dict.keys c.DVNames).Nodup)
    (hk : Dict.find c.DVNames k = some d)
    (hdv : Dict.find c.DVs d = some dvc)
    (hQ : ({ dvc with value := v2 } : fuelCaseDV) = { dv with value := v2 })
    (hkey : k = "fuelFraction" ∨ k = "reserveFraction") :
    FuelCase.getAttr (FuelCase.setDesignVars c [(d, v2)]) k = v2 + dv.offset ∧
    (∃ dvc', Dict.find (FuelCase.setDesignVars c [(d, v2)]).DVs d = some dvc' ∧
      ({ dvc' with value := v2 } : fuelCaseDV) = { dv with value := v2 } ∧
      dvc'.value = v2) ∧
    (FuelCase.setDesignVars c [(d, v2)]).DVNames = c.DVNames ∧
    (FuelCase.setDesignVars c [(d, v2)]).name = c.name ∧
    (FuelCase.setDesignVars c [(d, v2)]).possibleDVs = c.possibleDVs := by
  obtain ⟨l1, l2, hsplit, hl1⟩ := Dict.find_split hk
  have hkeys : Dict.keys c.DVNames = Dict.keys l1 ++ k :: Dict.keys l2 := by
    rw [hsplit]
    simp [Dict.keys]
  have hk2 : ∀ kv ∈ l2, kv.1 ≠ k := by
    intro kv hm he
    have h1 : (Dict.keys l1 ++ k :: Dict.keys l2).Nodup := hkeys ▸ hwf
    have h2 : (k :: Dict.keys l2).Nodup := h1.of_append_right
    exact (List.nodup_cons.1 h2).1 (he ▸ List.mem_map.2 ⟨kv, hm, rfl⟩)
  have hfold : FuelCase.setDesignVars c [(d, v2)] =
      List.foldl (sdvStep [(d, v2)])
        (sdvStep [(d, v2)] (List.foldl (sdvStep [(d, v2)]) c l1) (k, d)) l2 := by
    unfold FuelCase.setDesignVars
    rw [hsplit, List.foldl_append, List.foldl_cons]
  obtain ⟨hn1, hm1, hp1⟩ := sdv_fold_frame [(d, v2)] l1 c
  obtain ⟨dvc1, hf1, hQ1, _⟩ := sdv_fold_dv d v2 dv l1 c dvc hdv hQ
  have hoff : dvc1.offset = dv.offset := by
    have h := congrArg fuelCaseDV.offset hQ1
    exact h
  have hstep : sdvStep [(d, v2)] (List.foldl (sdvStep [(d, v2)]) c l1) (k, d) =
      { FuelCase.setAttr (List.foldl (sdvStep [(d, v2)]) c l1) k (v2 + dvc1.offset) with
        DVs := Dict.update (List.foldl (sdvStep [(d, v2)]) c l1).DVs d
          { dvc1 with value := v2 } } :=
    sdvStep_hit d v2 _ k dvc1 hf1
  obtain ⟨hn2, hm2, hp2⟩ := sdv_fold_frame [(d, v2)]
    l2 (sdvStep [(d, v2)] (List.foldl (sdvStep [(d, v2)]) c l1) (k, d))
  obtain ⟨dvc', hf', hQ', himp⟩ := sdv_fold_dv d v2 dv l2
    (sdvStep [(d, v2)] (List.foldl (sdvStep [(d, v2)]) c l1) (k, d))
    { dvc1 with value := v2 }
    (by rw [hstep]; exact Dict.find_update_self _ d { dvc1 with value := v2 })
    hQ1
  refine ⟨?_, ⟨dvc', hfold ▸ hf', hQ', himp rfl⟩, ?_, ?_, ?_⟩
  · rw [hfold, sdv_fold_getAttr [(d, v2)] k l2 _ hk2, hstep]
    have : FuelCase.getAttr
        { FuelCase.setAttr (List.foldl (sdvStep [(d, v2)]) c l1) k (v2 + dvc1.offset) with
          DVs := Dict.update (List.foldl (sdvStep [(d, v2)]) c l1).DVs d
            { dvc1 with value := v2 } } k =
        FuelCase.getAttr
          (FuelCase.setAttr (List.foldl (sdvStep [(d, v2)]) c l1) k (v2 + dvc1.offset)) k := rfl
    rw [this, getAttr_setAttr_self _ k _ hkey, hoff]
  · rw [hfold]
    rw [hn2, hstep]
    have : ({ FuelCase.setAttr (List.foldl (sdvStep [(d, v2)]) c l1) k (v2 + dvc1.offset) with
        DVs := Dict.update (List.foldl (sdvStep [(d, v2)]) c l1).DVs d
          { dvc1 with value := v2 } } : FuelCase).DVNames =
        (FuelCase.setAttr (List.foldl (sdvStep [(d, v2)]) c l1) k (v2 + dvc1.offset)).DVNames := rfl
    rw [this, setAttr_DVNames, hn1]
  · rw [hfold, hm2, hstep]
    have : ({ FuelCase.setAttr (List.foldl (sdvStep [(d, v2)]) c l1) k (v2 + dvc1.offset) with
        DVs := Dict.update (List.foldl (sdvStep [(d, v2)]) c l1).DVs d
          { dvc1 with value := v2 } } : FuelCase).name =
        (FuelCase.setAttr (List.foldl (sdvStep [(d, v2)]) c l1) k (v2 + dvc1.offset)).name := rfl
    rw [this, setAttr_name, hm1]
  · rw [hfold, hp2, hstep]
    have : ({ FuelCase.setAttr (List.foldl (sdvStep [(d, v2)]) c l1) k (v2 + dvc1.offset) with
        DVs := Dict.update (List.foldl (sdvStep [(d, v2)]) c l1).DVs d
          { dvc1 with value := v2 } } : FuelCase).possibleDVs =
        (FuelCase.setAttr (List.foldl (sdvStep [(d, v2)]) c l1) k (v2 + dvc1.offset)).possibleDVs := rfl
    rw [this, setAttr_possibleDVs, hp1]

/-- Fold of a pointwise-identity step is the identity. -/
theorem foldl_const {α σ : Type} (f : σ → α → σ) :
    ∀ (l : List α) (s : σ), (∀ a ∈ l, ∀ t, f t a = t) → List.foldl f s l = s
  | [], _, _ => rfl
  | a :: l, s, h => by
    rw [List.foldl_cons, h a (List.mem_cons_self _ _) s]
    exact foldl_const f l s fun b hb t => h b (List.mem_cons_of_mem _ hb) t

theorem caseFstStep_ne (pname d : String) (v2 : ℚ) (acc : FuelCase)
    (kv : String × fuelCaseDV) (h : kv.1 ≠ d) :
    caseFstStep pname [(pname ++ "_" ++ d, v2)] acc kv = acc := by
  unfold caseFstStep
  rw [Dict.find_singleton]
  have hne : pname ++ "_" ++ d ≠ pname ++ "_" ++ kv.1 :=
    fun he => h (prefixed_cancel he).symm
  simp [hne]

theorem caseFstStep_hit (pname d : String) (v2 : ℚ) (acc : FuelCase)
    (dvv : fuelCaseDV) :
    caseFstStep pname [(pname ++ "_" ++ d, v2)] acc (d, dvv) =
      FuelCase.setDesignVars acc [(d, v2)] := by
  unfold caseFstStep
  rw [Dict.find_singleton]
  simp

/-- Invariant carried through the `setDesignVars` fuel-case loop once the dv
named `d` (local key `k`, original record `dv`) has been pushed: the attribute
holds `v2 + offset`, the dv record holds value `v2`, bookkeeping unchanged. -/
def roundtripInv (c0 : FuelCase) (k d : String) (dv : fuelCaseDV) (v2 : ℚ)
    (acc : FuelCase) : Prop :=
  FuelCase.getAttr acc k = v2 + dv.offset ∧
  (∃ dvc, Dict.find acc.DVs d = some dvc ∧
    ({ dvc with value := v2 } : fuelCaseDV) = { dv with value := v2 } ∧
    dvc.value = v2) ∧
  acc.DVNames = c0.DVNames ∧ acc.name = c0.name ∧ acc.possibleDVs = c0.possibleDVs

theorem roundtripInv_set (c0 : FuelCase) (k d : String) (dv : fuelCaseDV) (v2 : ℚ)
    (hwf : (Dict.keys c0.DVNames).Nodup) (hk : Dict.find c0.DVNames k = some d)
    (hkey : k = "fuelFraction" ∨ k = "reserveFraction")
    (acc : FuelCase) (hR : roundtripInv c0 k d dv v2 acc) :
    roundtripInv c0 k d dv v2 (FuelCase.setDesignVars acc [(d, v2)]) := by
  obtain ⟨hA, ⟨dvc, hfind, hQ, hval⟩, hN, hm, hp⟩ := hR
  obtain ⟨gA, gEx, gN, gm, gp⟩ :=
    setDesignVars_singleton acc k d dvc dv v2 (by rw [hN]; exact hwf)
      (by rw [hN]; exact hk) hfind hQ hkey
  exact ⟨gA, gEx, gN.trans hN, gm.trans hm, gp.trans hp⟩

theorem roundtrip_fold (pname : String) (c0 : FuelCase) (k d : String)
    (dv : fuelCaseDV) (v2 : ℚ)
    (hwf : (Dict.keys c0.DVNames).Nodup) (hk : Dict.find c0.DVNames k = some d)
    (hkey : k = "fuelFraction" ∨ k = "reserveFraction") :
    ∀ (l : List (String × fuelCaseDV)) (acc : FuelCase),
    roundtripInv c0 k d dv v2 acc →
    roundtripInv c0 k d dv v2
      (List.foldl (caseFstStep pname [(pname ++ "_" ++ d, v2)]) acc l)
  | [], _, h => h
  | kv :: l, acc, h => by
    rw [List.foldl_cons]
    by_cases hd : kv.1 = d
    · obtain ⟨k1, dvv⟩ := kv
      cases hd
      rw [caseFstStep_hit pname k1 v2 acc dvv]
      exact roundtrip_fold pname c0 k k1 dv v2 hwf hk hkey l _
        (roundtripInv_set c0 k k1 dv v2 hwf hk hkey acc h)
    · rw [caseFstStep_ne pname d v2 acc kv hd]
      exact roundtrip_fold pname c0 k d dv v2 hwf hk hkey l acc h

/-- Running the `setDesignVars` fuel-case loop with the one-entry vector
`{pname_d: v2}` over a case that registered local key `k` under dv name `d`
establishes the round-trip invariant. -/
theorem afterSetDVs_roundtrip (pname : String) (c : FuelCase) (k d : String)
    (dv : fuelCaseDV) (v2 : ℚ)
    (hwf : (Dict.keys c.DVNames).Nodup) (hk : Dict.find c.DVNames k = some d)
    (hdv : Dict.find c.DVs d = some dv)
    (hkey : k = "fuelFraction" ∨ k = "reserveFraction") :
    roundtripInv c k d dv v2
      (FuelCase.afterSetDVs pname [(pname ++ "_" ++ d, v2)] c) := by
  obtain ⟨l1, l2, hsplit, hl1⟩ := Dict.find_split hdv
  have hfold : FuelCase.afterSetDVs pname [(pname ++ "_" ++ d, v2)] c =
      List.foldl (caseFstStep pname [(pname ++ "_" ++ d, v2)])
        (caseFstStep pname [(pname ++ "_" ++ d, v2)]
          (List.foldl (caseFstStep pname [(pname ++ "_" ++ d, v2)]) c l1) (d, dv)) l2 := by
    unfold FuelCase.afterSetDVs
    rw [hsplit, List.foldl_append, List.foldl_cons]
  have hid : List.foldl (caseFstStep pname [(pname ++ "_" ++ d, v2)]) c l1 = c :=
    foldl_const _ l1 c fun kv hm acc => caseFstStep_ne pname d v2 acc kv (hl1 kv hm)
  rw [hfold, hid, caseFstStep_hit]
  have hbase : roundtripInv c k d dv v2 (FuelCase.setDesignVars c [(d, v2)]) :=
    setDesignVars_singleton c k d dv dv v2 hwf hk hdv rfl hkey
  exact roundtrip_fold pname c k d dv v2 hwf hk hkey l2 _ hbase

theorem curStep_find (pname fq : String) (v2 : ℚ) (cur : Dict ℚ) (k : String) :
    Dict.find (curStep pname [(fq, v2)] cur k) fq =
      if pname ++ "_" ++ k = fq then some v2 else Dict.find cur fq := by
  unfold curStep
  rw [Dict.find_singleton]
  by_cases h : fq = pname ++ "_" ++ k
  · rw [if_pos h, if_pos h.symm, ← h, Dict.find_update_self]
  · rw [if_neg h, if_neg (Ne.symm h)]

theorem curAfter_stable (pname fq : String) (v2 : ℚ) :
    ∀ (ks : List String) (cur : Dict ℚ), Dict.find cur fq = some v2 →
    Dict.find (curAfterKeys pname [(fq, v2)] cur ks) fq = some v2
  | [], _, h => h
  | k :: ks, cur, h => by
    unfold curAfterKeys
    rw [List.foldl_cons]
    refine curAfter_stable pname fq v2 ks _ ?_
    rw [curStep_find]
    split
    · rfl
    · exact h

theorem curAfter_hit (pname fq : String) (v2 : ℚ) :
    ∀ (ks : List String) (cur : Dict ℚ), (∃ k ∈ ks, pname ++ "_" ++ k = fq) →
    Dict.find (curAfterKeys pname [(fq, v2)] cur ks) fq = some v2
  | [], _, h => absurd h (by simp)
  | k :: ks, cur, h => by
    unfold curAfterKeys
    rw [List.foldl_cons]
    by_cases hk : pname ++ "_" ++ k = fq
    · refine curAfter_stable pname fq v2 ks _ ?_
      rw [curStep_find, if_pos hk]
    · refine curAfter_hit pname fq v2 ks _ ?_
      rcases h with ⟨k', hm, he⟩
      rcases List.mem_cons.1 hm with he' | hm'
      · exact absurd (he' ▸ he) hk
      · exact ⟨k', hm', he⟩

theorem casesCur_stable (pname fq : String) (v2 : ℚ) :
    ∀ (cs : List FuelCase) (cur : Dict ℚ), Dict.find cur fq = some v2 →
    Dict.find (List.foldl
      (fun cur c => curAfterKeys pname [(fq, v2)] cur (Dict.keys c.DVs)) cur cs)
      fq = some v2
  | [], _, h => h
  | c :: cs, cur, h => by
    rw [List.foldl_cons]
    exact casesCur_stable pname fq v2 cs _ (curAfter_stable pname fq v2 _ cur h)

theorem casesCur_hit (pname fq : String) (v2 : ℚ) :
    ∀ (cs : List FuelCase) (cur : Dict ℚ),
    (∃ c ∈ cs, ∃ k ∈ Dict.keys c.DVs, pname ++ "_" ++ k = fq) →
    Dict.find (List.foldl
      (fun cur c => curAfterKeys pname [(fq, v2)] cur (Dict.keys c.DVs)) cur cs)
      fq = some v2
  | [], _, h => by simp at h
  | c :: cs, cur, h => by
    rw [List.foldl_cons]
    rcases h with ⟨c', hm, hex⟩
    rcases List.mem_cons.1 hm with he | hm'
    · exact casesCur_stable pname fq v2 cs _ (curAfter_hit pname fq v2 _ cur (he ▸ hex))
    · exact casesCur_hit pname fq v2 cs _ ⟨c', hm', hex⟩

/-- Identity stand-in for the external `Component.setDesignVars`, used by the
concrete witnesses (the theorems hold for every such function). -/
def constCompSet : Component → Dict ℚ → Component := fun c _ => c

/-- Fuel case `FuelCase('case1', 0.9, 0.1)` after `addDV('fuelFraction')`. -/
def caseWithFuelDV : FuelCase :=
  match FuelCase.addDV (FuelCase.init "case1" (9/10) (1/10)) "fuelFraction"
      none none none 1 none 0 none true with
  | Except.ok c => c
  | Except.error _ => FuelCase.init "case1" (9/10) (1/10)

/-- Fuel case with both fractions registered through `addDV`. -/
def caseWithBothDVs : FuelCase :=
  match FuelCase.addDV caseWithFuelDV "reserveFraction"
      none none none 1 none 0 none true with
  | Except.ok c => c
  | Except.error _ => caseWithFuelDV

/-- Fuel case `FuelCase('case1', 0.9, 0.1)` after `addDV('reserveFraction')`
only. -/
def caseWithReserveDV : FuelCase :=
  match FuelCase.addDV (FuelCase.init "case1" (9/10) (1/10)) "reserveFraction"
      none none none 1 none 0 none true with
  | Except.ok c => c
  | Except.error _ => FuelCase.init "case1" (9/10) (1/10)

/-- Fuel case whose `fuelFraction` dv was registered under the override name
`shared`. -/
def caseWithSharedDV : FuelCase :=
  match FuelCase.addDV (FuelCase.init "case1" (9/10) (1/10)) "fuelFraction"
      none none none 1 (some "shared") 0 none true with
  | Except.ok c => c
  | Except.error _ => FuelCase.init "case1" (9/10) (1/10)

/-- Problem `WeightProblem('wp', 'kg')` with `caseWithFuelDV` registered. -/
def probWithCase : WeightProblem :=
  match WeightProblem.addFuelCases (WeightProblem.init "wp" "kg" [])
      (PyVal.list [caseWithFuelDV]) with
  | Except.ok p => p
  | Except.error _ => WeightProblem.init "wp" "kg" []

/-- Problem `WeightProblem('wp', 'kg')` with `caseWithSharedDV` registered. -/
def probWithSharedCase : WeightProblem :=
  match WeightProblem.addFuelCases (WeightProblem.init "wp" "kg" [])
      (PyVal.list [caseWithSharedDV]) with
  | Except.ok p => p
  | Except.error _ => WeightProblem.init "wp" "kg" []

/-- Components of the spec's filter example: types A, B wing and C fuel. -/
def compA : Component :=
  { name := "A", compType := "wing", units := "", DVs := [] }

def compB : Component :=
  { name := "B", compType := "wing", units := "", DVs := [] }

def compC : Component :=
  { name := "C", compType := "fuel", units := "", DVs := [] }

/-- Component with one design variable, for the registration witnesses. -/
def compD : Component :=
  { name := "D", compType := "wing", units := "", DVs := [("D_span", { value := 2 })] }

/-- Problem with the three example components registered. -/
def probABC : WeightProblem :=
  match WeightProblem.addComponents (WeightProblem.init "wp" "kg" [])
      (PyVal.list [compA, compB, compC]) with
  | Except.ok p => p
  | Except.error _ => WeightProblem.init "wp" "kg" []

/-- C1: the spec says a single component or fuel case passed bare is accepted
and registered, and only other shapes raise the module's `Error`.  The code
tests `type(x) == object`, which no Component/FuelCase instance satisfies, so
every bare single entity is rejected with the `Error` whose own message
promises "either a list of or a single component": the code contradicts its
documentation, and only the list form succeeds. -/
theorem C1_single_entity_rejected :
    WeightProblem.addComponents (WeightProblem.init "wp" "kg" []) (PyVal.entity compA) =
      Except.error "addComponents() takes in either a list of or a single component" ∧
    WeightProblem.addFuelCases (WeightProblem.init "wp" "kg" [])
      (PyVal.entity (FuelCase.init "case1" (9/10) (1/10))) =
      Except.error "addFuelCases() takes in either a list of or a single fuelcase" ∧
    (∃ p, WeightProblem.addComponents (WeightProblem.init "wp" "kg" [])
      (PyVal.list [compA]) = Except.ok p) :=
  ⟨rfl, rfl, ⟨_, rfl⟩⟩

/-- C3: `FuelCase.addDV` raises the module's `Error` exactly when the key is
outside the whitelist `['fuelFraction', 'reserveFraction']`; the message names
the offending key and the whitelist.  The whitelist check precedes every
write, so a raising call returns no updated case (`Except.error` carries no
state): the case's `DVs` and `DVNames` are untouched. -/
theorem C3_addDV_whitelist (nm : String) (ff rf : ℚ) (c : FuelCase) (key : String)
    (value lower upper : Option ℚ) (scale : ℚ) (nameArg : Option String)
    (offset : ℚ) (axis : Option String) (a2p : Bool) :
    (FuelCase.init nm ff rf).possibleDVs = ["fuelFraction", "reserveFraction"] ∧
    (FuelCase.addDV c key value lower upper scale nameArg offset axis a2p =
      Except.error (addDVErrMsg key c.possibleDVs) ↔ key ∉ c.possibleDVs) ∧
    (∃ pre post, addDVErrMsg key c.possibleDVs = pre ++ (key ++ post)) ∧
    (∃ pre post, addDVErrMsg key c.possibleDVs =
      pre ++ (pyReprList c.possibleDVs ++ post)) ∧
    (key ∉ c.possibleDVs →
      ∀ c', FuelCase.addDV c key value lower upper scale nameArg offset axis a2p ≠
        Except.ok c') := by
  refine ⟨rfl, ⟨?_, ?_⟩, ?_, ?_, ?_⟩
  · intro he
    by_contra hmem
    unfold FuelCase.addDV at he
    rw [if_neg (not_not_intro hmem)] at he
    exact Except.noConfusion he
  · intro hmem
    unfold FuelCase.addDV
    rw [if_pos hmem]
  · exact ⟨"The DV '",
      "' could not be added.  The list of possible DVs are: " ++
        (pyReprList c.possibleDVs ++ "."), rfl⟩
  · refine ⟨"The DV '" ++ (key ++ "' could not be added.  The list of possible DVs are: "),
      ".", ?_⟩
    simp [addDVErrMsg, String.append_assoc]
  · intro hmem c' he
    unfold FuelCase.addDV at he
    rw [if_pos hmem] at he
    exact Except.noConfusion he

/-- C4: a fuel case with both `fuelFraction` and `reserveFraction` registered
as optimizer-visible dvs gets exactly one linear constraint, named
`{prefix}_{case}_fuelcase`, bounded `[0, 1]`, with coefficient `[[1]]` on each
of the two fraction variables (`addLinearConstraint` calls `addCon` once, on
the two-variable branch). -/
theorem C4_both_dvs_constraint (c : FuelCase) (pfx : String) (df dr : String)
    (dvf dvr : fuelCaseDV)
    (hf : Dict.find c.DVNames "fuelFraction" = some df)
    (hr : Dict.find c.DVNames "reserveFraction" = some dr)
    (hvf : Dict.find c.DVs df = some dvf)
    (hvr : Dict.find c.DVs dr = some dvr)
    (hof : dvf.addToPyOpt = true)
    (hor : dvr.addToPyOpt = true) :
    FuelCase.addLinearConstraint c pfx = some
      { name := pfx ++ "_" ++ c.name ++ "_fuelcase", lower := 0, upper := 1,
        scale := 1, linear := true,
        wrt := [pfx ++ "_" ++ c.name ++ "_fuelFraction",
                pfx ++ "_" ++ c.name ++ "_reserveFraction"],
        jac := [(pfx ++ "_" ++ c.name ++ "_fuelFraction", [[1]]),
                (pfx ++ "_" ++ c.name ++ "_reserveFraction", [[1]])] } := by
  have hfuel : (List.any c.DVNames fun kv => pyLower kv.1 = "fuelfraction") = true := by
    refine List.any_eq_true.2 ⟨("fuelFraction", df), Dict.find_mem hf, ?_⟩
    show decide (pyLower "fuelFraction" = "fuelfraction") = true
    decide
  have hres : (List.any c.DVNames fun kv => pyLower kv.1 = "reservefraction") = true := by
    refine List.any_eq_true.2 ⟨("reserveFraction", dr), Dict.find_mem hr, ?_⟩
    show decide (pyLower "reserveFraction" = "reservefraction") = true
    decide
  simp only [FuelCase.addLinearConstraint]
  rw [hfuel, hres]
  rfl

/-- C5: with exactly one fraction registered, `addLinearConstraint` emits the
degenerate single-variable constraint with lower bound 0, coefficient `[[1]]`,
and upper bound 1 minus the other fraction's current fixed value; with neither
registered it emits nothing. -/
theorem C5_degenerate_constraint (c : FuelCase) (pfx : String) :
    ((∀ kv ∈ c.DVNames, pyLower kv.1 ≠ "fuelfraction") →
      (∃ dr, Dict.find c.DVNames "reserveFraction" = some dr) →
      FuelCase.addLinearConstraint c pfx = some
        { name := pfx ++ "_" ++ c.name ++ "_fuelcase", lower := 0,
          upper := 1 - c.fuelFraction, scale := 1, linear := true,
          wrt := [pfx ++ "_" ++ c.name ++ "_reserveFraction"],
          jac := [(pfx ++ "_" ++ c.name ++ "_reserveFraction", [[1]])] }) ∧
    ((∀ kv ∈ c.DVNames, pyLower kv.1 ≠ "reservefraction") →
      (∃ df, Dict.find c.DVNames "fuelFraction" = some df) →
      FuelCase.addLinearConstraint c pfx = some
        { name := pfx ++ "_" ++ c.name ++ "_fuelcase", lower := 0,
          upper := 1 - c.reserveFraction, scale := 1, linear := true,
          wrt := [pfx ++ "_" ++ c.name ++ "_fuelFraction"],
          jac := [(pfx ++ "_" ++ c.name ++ "_fuelFraction", [[1]])] }) ∧
    ((∀ kv ∈ c.DVNames,
        pyLower kv.1 ≠ "fuelfraction" ∧ pyLower kv.1 ≠ "reservefraction") →
      FuelCase.addLinearConstraint c pfx = none) := by
  refine ⟨?_, ?_, ?_⟩
  · intro hnf hr
    obtain ⟨dr, hr⟩ := hr
    have hfuel : (List.any c.DVNames fun kv => pyLower kv.1 = "fuelfraction") = false := by
      rw [List.any_eq_false]
      intro kv hm
      simpa using hnf kv hm
    have hres : (List.any c.DVNames fun kv => pyLower kv.1 = "reservefraction") = true := by
      refine List.any_eq_true.2 ⟨("reserveFraction", dr), Dict.find_mem hr, ?_⟩
      show decide (pyLower "reserveFraction" = "reservefraction") = true
      decide
    simp only [FuelCase.addLinearConstraint]
    rw [hfuel, hres]
    rfl
  · intro hnr hf
    obtain ⟨df, hf⟩ := hf
    have hres : (List.any c.DVNames fun kv => pyLower kv.1 = "reservefraction") = false := by
      rw [List.any_eq_false]
      intro kv hm
      simpa using hnr kv hm
    have hfuel : (List.any c.DVNames fun kv => pyLower kv.1 = "fuelfraction") = true := by
      refine List.any_eq_true.2 ⟨("fuelFraction", df), Dict.find_mem hf, ?_⟩
      show decide (pyLower "fuelFraction" = "fuelfraction") = true
      decide
    simp only [FuelCase.addLinearConstraint]
    rw [hfuel, hres]
    rfl
  · intro hn
    have hfuel : (List.any c.DVNames fun kv => pyLower kv.1 = "fuelfraction") = false := by
      rw [List.any_eq_false]
      intro kv hm
      simpa using (hn kv hm).1
    have hres : (List.any c.DVNames fun kv => pyLower kv.1 = "reservefraction") = false := by
      rw [List.any_eq_false]
      intro kv hm
      simpa using (hn kv hm).2
    simp only [FuelCase.addLinearConstraint]
    rw [hfuel, hres]
    rfl

theorem mem_optFilter {o : Option (List String)} {q : String → List String → Bool}
    {l : List String} {k : String} :
    k ∈ optFilter o q l ↔ k ∈ l ∧ ∀ ts, o = some ts → q k ts = true := by
  cases o with
  | none => simp [optFilter]
  | some ts => simp [optFilter, List.mem_filter]

/-- C6: `_getComponentKeys` starts from all registered component names and
applies `includeType` (narrow by `compType`), `include` (intersect), `exclude`
(subtract), `excludeType` (remove by `compType`) in that fixed order, treating
a bare string filter as a one-element collection; a key survives exactly when
it passes every given filter.  On components typed `{A: wing, B: wing,
C: fuel}`, `includeType='wing'` with `exclude='A'` selects exactly `B`. -/
theorem C6_filter_composition :
    (∀ (p : WeightProblem) (incl excl inclType exclType : Option StrFilter) (k : String),
      k ∈ WeightProblem.getComponentKeys p incl excl inclType exclType ↔
        k ∈ Dict.keys p.components ∧
        (∀ ts, filterList inclType = some ts → WeightProblem.compTypeOf p k ∈ ts) ∧
        (∀ ts, filterList incl = some ts → k ∈ ts) ∧
        (∀ ts, filterList excl = some ts → k ∉ ts) ∧
        (∀ ts, filterList exclType = some ts → WeightProblem.compTypeOf p k ∉ ts)) ∧
    WeightProblem.getComponentKeys probABC none (some (StrFilter.str "A"))
      (some (StrFilter.str "wing")) none = ["B"] := by
  constructor
  · intro p incl excl inclType exclType k
    simp only [WeightProblem.getComponentKeys, mem_optFilter, decide_eq_true_eq]
    tauto
  · decide

/-- Double registration of `fuelFraction`, the second time under the override
name `shared` (Python: `case.addDV('fuelFraction'); case.addDV('fuelFraction',
name='shared')`). -/
def caseDoubleReg : Except String FuelCase :=
  Except.bind
    (FuelCase.addDV (FuelCase.init "case1" (9/10) (1/10)) "fuelFraction"
      none none none 1 none 0 none true)
    fun c1 => FuelCase.addDV c1 "fuelFraction" none none none 1 (some "shared") 0 none true

/-- C8 counterexample: after registering the key `fuelFraction` twice with
different `name` arguments, the case's `DVs` map holds two entries
(`case1_fuelFraction` and `shared`) whose records both carry the key
`fuelFraction` — the second registration does not overwrite the first `DVs`
entry, so a case is not limited to one `DVs` entry per local key. -/
theorem C8_counterexample :
    Except.map (fun c => List.countP (fun kv => kv.2.key == "fuelFraction") c.DVs)
      caseDoubleReg = Except.ok 2 ∧
    Except.map (fun c => Dict.keys c.DVs) caseDoubleReg =
      Except.ok ["case1_fuelFraction", "shared"] ∧
    Except.map (fun c => Dict.keys c.DVNames) caseDoubleReg = Except.ok ["fuelFraction"] :=
  ⟨rfl, rfl, rfl⟩

/-- C8 amended: a fuel case holds at most one dv registration per local key in
`DVNames` — a successful `addDV` leaves exactly one `DVNames` entry for the
key, pointing at the computed dv name, and overwrites the `DVs` entry under
that dv name.  The `DVs` map itself is keyed by fully-qualified dv name, so a
re-registration under a different `name`/`axis` leaves the old entry in `DVs`
(see the counterexample); both maps keep their keys duplicate-free. -/
theorem C8_amended_overwrite (c : FuelCase) (key : String)
    (value lower upper : Option ℚ) (scale : ℚ) (nameArg : Option String)
    (offset : ℚ) (axis : Option String) (a2p : Bool) (c' : FuelCase)
    (hwfN : (Dict.keys c.DVNames).Nodup) (hwfD : (Dict.keys c.DVs).Nodup)
    (hok : FuelCase.addDV c key value lower upper scale nameArg offset axis a2p =
      Except.ok c') :
    (Dict.keys c'.DVNames).Nodup ∧
    List.count key (Dict.keys c'.DVNames) = 1 ∧
    Dict.find c'.DVNames key = some (dvNameOf c.name key nameArg axis) ∧
    (Dict.keys c'.DVs).Nodup ∧
    (∃ dvr, Dict.find c'.DVs (dvNameOf c.name key nameArg axis) = some dvr ∧
      dvr.key = key ∧ dvr.offset = offset ∧ dvr.addToPyOpt = a2p) := by
  by_cases hmem : key ∈ c.possibleDVs
  · unfold FuelCase.addDV at hok
    rw [if_neg (not_not_intro hmem)] at hok
    injection hok with hc
    subst hc
    refine ⟨Dict.nodup_keys_update _ _ _ hwfN, ?_,
      Dict.find_update_self _ _ _, Dict.nodup_keys_update _ _ _ hwfD,
      ⟨_, Dict.find_update_self _ _ _, rfl, rfl, rfl⟩⟩
    exact List.count_eq_one_of_mem (Dict.nodup_keys_update _ _ _ hwfN)
      ((Dict.mem_keys_update _ _ _ _).2 (Or.inl rfl))
  · unfold FuelCase.addDV at hok
    rw [if_pos hmem] at hok
    exact Except.noConfusion hok

/-- C2: applying `setDesignVars {fqName: v2}` to a problem that holds a fuel
case with a dv registered for whitelisted key `k` under dv name `d`
(`fqName = problemName_d`) pushes `v2 + offset` into the case's attribute `k`,
stores `v2` as that DesignVariable's value, and writes `v2` into the
problem's `currentDVs` cache under `fqName`.  The fuel-case list is mapped
through the per-case loop, so the updated case is registered in place. -/
theorem C2_setDesignVars_roundtrip (compSet : Component → Dict ℚ → Component)
    (p : WeightProblem) (c : FuelCase) (k d : String) (dv : fuelCaseDV) (v2 : ℚ)
    (hc : c ∈ p.fuelcases)
    (hwf : (Dict.keys c.DVNames).Nodup)
    (hk : Dict.find c.DVNames k = some d)
    (hdv : Dict.find c.DVs d = some dv)
    (hkey : k = "fuelFraction" ∨ k = "reserveFraction") :
    Dict.find (WeightProblem.setDesignVars compSet p [(p.name ++ "_" ++ d, v2)]).currentDVs
      (p.name ++ "_" ++ d) = some v2 ∧
    (WeightProblem.setDesignVars compSet p [(p.name ++ "_" ++ d, v2)]).fuelcases =
      List.map (FuelCase.afterSetDVs p.name [(p.name ++ "_" ++ d, v2)]) p.fuelcases ∧
    FuelCase.afterSetDVs p.name [(p.name ++ "_" ++ d, v2)] c ∈
      (WeightProblem.setDesignVars compSet p [(p.name ++ "_" ++ d, v2)]).fuelcases ∧
    FuelCase.getAttr (FuelCase.afterSetDVs p.name [(p.name ++ "_" ++ d, v2)] c) k =
      v2 + dv.offset ∧
    Dict.find (FuelCase.afterSetDVs p.name [(p.name ++ "_" ++ d, v2)] c).DVs d =
      some { dv with value := v2 } := by
  obtain ⟨hA, ⟨dvc, hfind, hQ, hval⟩, _, _, _⟩ :=
    afterSetDVs_roundtrip p.name c k d dv v2 hwf hk hdv hkey
  have hdvc : dvc = { dv with value := v2 } := by
    calc dvc = { dvc with value := dvc.value } := rfl
      _ = { dvc with value := v2 } := by rw [hval]
      _ = { dv with value := v2 } := hQ
  rw [setDesignVars_eq]
  refine ⟨?_, rfl, List.mem_map.2 ⟨c, hc, rfl⟩, hA, hdvc ▸ hfind⟩
  exact casesCur_hit p.name (p.name ++ "_" ++ d) v2 p.fuelcases _
    ⟨c, hc, d, Dict.mem_keys.2 ⟨dv, Dict.find_mem hdv⟩, rfl⟩

/-- C7: `setDesignVars` with a vector that names none of this problem's
fully-qualified dv names leaves the problem exactly as it was — every dv
value, every entity attribute and the `currentDVs` cache — whatever the
components' own (external) `setDesignVars` does, since it is never invoked.
The method returns `None` and raises nothing. -/
theorem C7_unrelated_names_frame (compSet : Component → Dict ℚ → Component)
    (p : WeightProblem) (x : Dict ℚ)
    (hcomp : ∀ kv ∈ p.components, ∀ dkv ∈ kv.2.DVs,
      Dict.find x (p.name ++ "_" ++ dkv.1) = none)
    (hcase : ∀ c ∈ p.fuelcases, ∀ dkv ∈ c.DVs,
      Dict.find x (p.name ++ "_" ++ dkv.1) = none) :
    WeightProblem.setDesignVars compSet p x = p := by
  rw [setDesignVars_eq]
  have hcomps : List.map (fun kv => (kv.1, compAfter compSet p.name x kv.2))
      p.components = p.components := by
    have h : ∀ kv ∈ p.components,
        (kv.1, compAfter compSet p.name x kv.2) = id kv := by
      intro kv hm
      have hid : compAfter compSet p.name x kv.2 = kv.2 :=
        foldl_const _ _ _ fun dkv hd acc => by
          unfold compFstStep
          rw [hcomp kv hm dkv hd]
      rw [hid]
      exact rfl
    rw [List.map_congr_left h, List.map_id]
  have hcases : List.map (FuelCase.afterSetDVs p.name x) p.fuelcases = p.fuelcases := by
    have h : ∀ c ∈ p.fuelcases, FuelCase.afterSetDVs p.name x c = id c := by
      intro c hm
      exact foldl_const _ _ _ fun dkv hd acc => by
        unfold caseFstStep
        rw [hcase c hm dkv hd]
    rw [List.map_congr_left h, List.map_id]
  have hcurKeys : ∀ {β : Type} (d : Dict β),
      (∀ dkv ∈ d, Dict.find x (p.name ++ "_" ++ dkv.1) = none) →
      ∀ cur, curAfterKeys p.name x cur (Dict.keys d) = cur := by
    intro β d hd cur
    refine foldl_const _ _ _ fun kk hkk t => ?_
    obtain ⟨v, hv⟩ := Dict.mem_keys.1 hkk
    unfold curStep
    rw [hd (kk, v) hv]
  have hcur1 : List.foldl (fun cur kv => curAfterKeys p.name x cur (Dict.keys kv.2.DVs))
      p.currentDVs p.components = p.currentDVs :=
    foldl_const _ _ _ fun kv hm t => hcurKeys kv.2.DVs (hcomp kv hm) t
  have hcur2 : List.foldl (fun cur c => curAfterKeys p.name x cur (Dict.keys c.DVs))
      p.currentDVs p.fuelcases = p.currentDVs :=
    foldl_const _ _ _ fun c hm t => hcurKeys c.DVs (hcase c hm) t
  rw [hcomps, hcases, hcur1, hcur2]

theorem foldl_append_eq {α β : Type} (g : α → List β) :
    ∀ (l : List α) (acc : List β),
    List.foldl (fun ns a => ns ++ g a) acc l = acc ++ (List.map g l).flatten
  | [], acc => by simp
  | a :: l, acc => by
    rw [List.foldl_cons, foldl_append_eq g l (acc ++ g a)]
    simp

theorem mem_getVarNames (p : WeightProblem) (w : String) :
    w ∈ WeightProblem.getVarNames p ↔
      ∃ n ∈ WeightProblem.localDVNames p, p.name ++ "_" ++ n = w := by
  unfold WeightProblem.getVarNames WeightProblem.localDVNames
  rw [foldl_append_eq, foldl_append_eq]
  simp only [List.nil_append, List.mem_append, List.mem_flatten, List.mem_map, Dict.keys]
  constructor
  · rintro (⟨ns, ⟨kv, hkv, rfl⟩, hw⟩ | ⟨ns, ⟨c, hc, rfl⟩, hw⟩)
    · obtain ⟨dkv, hd, hweq⟩ := List.mem_map.1 hw
      exact ⟨dkv.1, Or.inl ⟨List.map Prod.fst kv.2.DVs, ⟨kv, hkv, rfl⟩,
        List.mem_map.2 ⟨dkv, hd, rfl⟩⟩, hweq⟩
    · obtain ⟨dkv, hd, hweq⟩ := List.mem_map.1 hw
      exact ⟨dkv.1, Or.inr ⟨List.map Prod.fst c.DVs, ⟨c, hc, rfl⟩,
        List.mem_map.2 ⟨dkv, hd, rfl⟩⟩, hweq⟩
  · rintro ⟨n, ⟨ns, ⟨kv, hkv, rfl⟩, hn⟩ | ⟨ns, ⟨c, hc, rfl⟩, hn⟩, hw⟩
    · obtain ⟨dkv, hd, rfl⟩ := List.mem_map.1 hn
      exact Or.inl ⟨List.map (fun dkv => p.name ++ "_" ++ dkv.1) kv.2.DVs,
        ⟨kv, hkv, rfl⟩, List.mem_map.2 ⟨dkv, hd, hw⟩⟩
    · obtain ⟨dkv, hd, rfl⟩ := List.mem_map.1 hn
      exact Or.inr ⟨List.map (fun dkv => p.name ++ "_" ++ dkv.1) c.DVs,
        ⟨c, hc, rfl⟩, List.mem_map.2 ⟨dkv, hd, hw⟩⟩

theorem regFold_mem_keys (pname : String) :
    ∀ (l : List (String × compDV)) (cur : Dict ℚ) (k : String),
    k ∈ Dict.keys (List.foldl
      (fun cur kv => Dict.update cur (pname ++ "_" ++ kv.1) kv.2.value) cur l) ↔
      k ∈ Dict.keys cur ∨ ∃ kv ∈ l, k = pname ++ "_" ++ kv.1
  | [], cur, k => by simp
  | kv0 :: l, cur, k => by
    rw [List.foldl_cons, regFold_mem_keys pname l _ k]
    rw [Dict.mem_keys_update]
    constructor
    · rintro ((h | h) | h)
      · exact Or.inr ⟨kv0, List.mem_cons_self _ _, h⟩
      · exact Or.inl h
      · obtain ⟨kv, hm, he⟩ := h
        exact Or.inr ⟨kv, List.mem_cons_of_mem _ hm, he⟩
    · rintro (h | ⟨kv, hm, he⟩)
      · exact Or.inl (Or.inr h)
      · rcases List.mem_cons.1 hm with he' | hm'
        · exact Or.inl (Or.inl (he' ▸ he))
        · exact Or.inr ⟨kv, hm', he⟩

theorem regFold_keys_of_mem (pname : String) :
    ∀ (l : List (String × compDV)) (cur : Dict ℚ),
    (∀ kv ∈ l, pname ++ "_" ++ kv.1 ∈ Dict.keys cur) →
    Dict.keys (List.foldl
      (fun cur kv => Dict.update cur (pname ++ "_" ++ kv.1) kv.2.value) cur l) =
      Dict.keys cur
  | [], _, _ => rfl
  | kv0 :: l, cur, h => by
    rw [List.foldl_cons]
    have hk := Dict.keys_update_of_mem cur (pname ++ "_" ++ kv0.1) kv0.2.value
      (h kv0 (List.mem_cons_self _ _))
    rw [regFold_keys_of_mem pname l _ fun kv hm => by
      rw [hk]; exact h kv (List.mem_cons_of_mem _ hm), hk]

theorem regFold_nodup (pname : String) :
    ∀ (l : List (String × compDV)) (cur : Dict ℚ), (Dict.keys cur).Nodup →
    (Dict.keys (List.foldl
      (fun cur kv => Dict.update cur (pname ++ "_" ++ kv.1) kv.2.value) cur l)).Nodup
  | [], _, h => h
  | kv0 :: l, cur, h => by
    rw [List.foldl_cons]
    exact regFold_nodup pname l _ (Dict.nodup_keys_update _ _ _ h)

theorem regFold_find_ne (pname : String) :
    ∀ (l : List (String × compDV)) (cur : Dict ℚ) (k : String),
    (∀ kv ∈ l, k ≠ pname ++ "_" ++ kv.1) →
    Dict.find (List.foldl
      (fun cur kv => Dict.update cur (pname ++ "_" ++ kv.1) kv.2.value) cur l) k =
      Dict.find cur k
  | [], _, _, _ => rfl
  | kv0 :: l, cur, k, h => by
    rw [List.foldl_cons,
      regFold_find_ne pname l _ k fun kv hm => h kv (List.mem_cons_of_mem _ hm),
      Dict.find_update_ne _ _ _ _ (h kv0 (List.mem_cons_self _ _))]

/-- C9: registering the same component object a second time under the same
name (through `addComponents` with the accepted list shape) is idempotent on
the problem state: `components` keeps exactly one entry for that name, the
`currentDVs` cache gains no new and no duplicate entries, and cache entries
not named by this component's dvs are unchanged. -/
theorem C9_idempotent_reregistration (p : WeightProblem) (c : Component)
    (hwfC : (Dict.keys p.components).Nodup)
    (hwfD : (Dict.keys p.currentDVs).Nodup) :
    WeightProblem.addComponents p (PyVal.list [c]) =
      Except.ok (WeightProblem.registerComponent p c) ∧
    WeightProblem.addComponents (WeightProblem.registerComponent p c) (PyVal.list [c]) =
      Except.ok (WeightProblem.registerComponent (WeightProblem.registerComponent p c) c) ∧
    List.count c.name (Dict.keys
      (WeightProblem.registerComponent (WeightProblem.registerComponent p c) c).components) = 1 ∧
    Dict.keys (WeightProblem.registerComponent (WeightProblem.registerComponent p c) c).currentDVs =
      Dict.keys (WeightProblem.registerComponent p c).currentDVs ∧
    (Dict.keys (WeightProblem.registerComponent
      (WeightProblem.registerComponent p c) c).currentDVs).Nodup ∧
    (∀ k, (∀ dkv ∈ c.DVs, k ≠ p.name ++ "_" ++ dkv.1) →
      Dict.find (WeightProblem.registerComponent
        (WeightProblem.registerComponent p c) c).currentDVs k =
      Dict.find (WeightProblem.registerComponent p c).currentDVs k) := by
  refine ⟨rfl, rfl, ?_, ?_, ?_, ?_⟩
  · have hnodup : (Dict.keys (WeightProblem.registerComponent
        (WeightProblem.registerComponent p c) c).components).Nodup :=
      Dict.nodup_keys_update _ _ _ (Dict.nodup_keys_update _ _ _ hwfC)
    exact List.count_eq_one_of_mem hnodup
      ((Dict.mem_keys_update _ _ _ _).2 (Or.inl rfl))
  · exact regFold_keys_of_mem p.name c.DVs _ fun kv hm =>
      (regFold_mem_keys p.name c.DVs p.currentDVs _).2 (Or.inr ⟨kv, hm, rfl⟩)
  · exact regFold_nodup p.name c.DVs _ (regFold_nodup p.name c.DVs p.currentDVs hwfD)
  · intro k hk
    exact regFold_find_ne p.name c.DVs _ k hk

/-- C10: the variable names a fuel case's linear constraint refers to are
always the two fixed strings `{prefix}_{case}_fuelFraction` and
`{prefix}_{case}_reserveFraction` — `addLinearConstraint` never consults the
dv names `addDV` stored — and the `jac` keys are exactly the `wrt` list.
Consequently, in a problem whose registered dv names all differ from the two
default local names (as happens when the dv was registered under an override
`name` or an `axis` suffix), the constraint's `wrt` entries are names under
which no dv was registered. -/
theorem C10_constraint_fixed_names (c : FuelCase) (pfx : String) (con : LinearCon)
    (h : FuelCase.addLinearConstraint c pfx = some con) :
    (∀ w ∈ con.wrt,
      w = pfx ++ "_" ++ c.name ++ "_fuelFraction" ∨
      w = pfx ++ "_" ++ c.name ++ "_reserveFraction") ∧
    Dict.keys con.jac = con.wrt ∧
    (∀ p : WeightProblem, p.name = pfx →
      (∀ n ∈ WeightProblem.localDVNames p,
        n ≠ c.name ++ "_fuelFraction" ∧ n ≠ c.name ++ "_reserveFraction") →
      ∀ w ∈ con.wrt, w ∉ WeightProblem.getVarNames p) := by
  have main : (∀ w ∈ con.wrt,
      w = pfx ++ "_" ++ c.name ++ "_fuelFraction" ∨
      w = pfx ++ "_" ++ c.name ++ "_reserveFraction") ∧
      Dict.keys con.jac = con.wrt := by
    simp only [FuelCase.addLinearConstraint] at h
    split at h
    · obtain rfl := Option.some.inj h
      exact ⟨by intro w hw; simpa [or_comm] using hw, rfl⟩
    · split at h
      · obtain rfl := Option.some.inj h
        exact ⟨by intro w hw; simp at hw; simp [hw], rfl⟩
      · split at h
        · obtain rfl := Option.some.inj h
          exact ⟨by intro w hw; simp at hw; simp [hw], rfl⟩
        · exact Option.noConfusion h
  refine ⟨main.1, main.2, ?_⟩
  intro p hp hn w hw hmem
  obtain ⟨n, hnmem, hne⟩ := (mem_getVarNames p w).1 hmem
  rcases main.1 w hw with hweq | hweq
  · have h2 : p.name ++ "_" ++ n = p.name ++ "_" ++ (c.name ++ "_fuelFraction") := by
      rw [hne, hweq, hp]
      simp [String.append_assoc]
    exact (hn n hnmem).1 (prefixed_cancel h2)
  · have h2 : p.name ++ "_" ++ n = p.name ++ "_" ++ (c.name ++ "_reserveFraction") := by
      rw [hne, hweq, hp]
      simp [String.append_assoc]
    exact (hn n hnmem).2 (prefixed_cancel h2)

/-- Constraint emitted for `caseWithSharedDV` (fuel-only branch). -/
def con10 : LinearCon :=
  match FuelCase.addLinearConstraint caseWithSharedDV "wp" with
  | some con => con
  | none =>
    { name := "", lower := 0, upper := 0, scale := 1, linear := true,
      wrt := [], jac := [] }

theorem C2_witness :
    Dict.find (WeightProblem.setDesignVars constCompSet probWithCase
      [(probWithCase.name ++ "_" ++ "case1_fuelFraction", 11/20)]).currentDVs
      (probWithCase.name ++ "_" ++ "case1_fuelFraction") = some (11/20) :=
  (C2_setDesignVars_roundtrip constCompSet probWithCase caseWithFuelDV
    "fuelFraction" "case1_fuelFraction"
    { key := "fuelFraction", value := 9/10, lower := none, upper := none,
      scale := 1, offset := 0, addToPyOpt := true } (11/20)
    (List.mem_singleton.mpr rfl) (by decide) (by decide) rfl (Or.inl rfl)).1

theorem C3_witness :
    FuelCase.addDV (FuelCase.init "case1" (9/10) (1/10)) "thrust"
      none none none 1 none 0 none true =
      Except.error (addDVErrMsg "thrust" (FuelCase.init "case1" (9/10) (1/10)).possibleDVs) :=
  (C3_addDV_whitelist "case1" (9/10) (1/10) (FuelCase.init "case1" (9/10) (1/10))
    "thrust" none none none 1 none 0 none true).2.1.mpr (by decide)

theorem C4_witness :
    FuelCase.addLinearConstraint caseWithBothDVs "wp" = some
      { name := "wp" ++ "_" ++ caseWithBothDVs.name ++ "_fuelcase", lower := 0,
        upper := 1, scale := 1, linear := true,
        wrt := ["wp" ++ "_" ++ caseWithBothDVs.name ++ "_fuelFraction",
                "wp" ++ "_" ++ caseWithBothDVs.name ++ "_reserveFraction"],
        jac := [("wp" ++ "_" ++ caseWithBothDVs.name ++ "_fuelFraction", [[1]]),
                ("wp" ++ "_" ++ caseWithBothDVs.name ++ "_reserveFraction", [[1]])] } :=
  C4_both_dvs_constraint caseWithBothDVs "wp" "case1_fuelFraction" "case1_reserveFraction"
    { key := "fuelFraction", value := 9/10, lower := none, upper := none,
      scale := 1, offset := 0, addToPyOpt := true }
    { key := "reserveFraction", value := 1/10, lower := none, upper := none,
      scale := 1, offset := 0, addToPyOpt := true }
    (by decide) (by decide) rfl rfl rfl rfl

theorem C5_witness :
    FuelCase.addLinearConstraint caseWithReserveDV "wp" = some
      { name := "wp" ++ "_" ++ caseWithReserveDV.name ++ "_fuelcase", lower := 0,
        upper := 1 - caseWithReserveDV.fuelFraction, scale := 1, linear := true,
        wrt := ["wp" ++ "_" ++ caseWithReserveDV.name ++ "_reserveFraction"],
        jac := [("wp" ++ "_" ++ caseWithReserveDV.name ++ "_reserveFraction", [[1]])] } ∧
    (1 : ℚ) - caseWithReserveDV.fuelFraction = 1/10 ∧
    FuelCase.addLinearConstraint (FuelCase.init "case0" (9/10) (1/10)) "wp" = none :=
  ⟨(C5_degenerate_constraint caseWithReserveDV "wp").1 (by decide)
      ⟨"case1_reserveFraction", by decide⟩,
    by rw [show caseWithReserveDV.fuelFraction = 9/10 from rfl]; norm_num,
    (C5_degenerate_constraint (FuelCase.init "case0" (9/10) (1/10)) "wp").2.2 (by decide)⟩

theorem C7_witness :
    WeightProblem.setDesignVars constCompSet probWithCase [("unrelated_name", 5)] =
      probWithCase :=
  C7_unrelated_names_frame constCompSet probWithCase [("unrelated_name", 5)]
    (by decide) (by decide)

theorem C8_witness :
    List.count "fuelFraction" (Dict.keys caseWithFuelDV.DVNames) = 1 :=
  (C8_amended_overwrite (FuelCase.init "case1" (9/10) (1/10)) "fuelFraction"
    none none none 1 none 0 none true caseWithFuelDV (by decide) (by decide) rfl).2.1

theorem C9_witness :
    List.count compD.name (Dict.keys (WeightProblem.registerComponent
      (WeightProblem.registerComponent (WeightProblem.init "wp" "kg" []) compD)
      compD).components) = 1 :=
  (C9_idempotent_reregistration (WeightProblem.init "wp" "kg" []) compD
    (by decide) (by decide)).2.2.1

theorem C10_witness :
    "wp" ++ "_" ++ caseWithSharedDV.name ++ "_fuelFraction" ∉
      WeightProblem.getVarNames probWithSharedCase :=
  (C10_constraint_fixed_names caseWithSharedDV "wp" con10 rfl).2.2 probWithSharedCase
    rfl (by decide) _ (by decide)

end PyWeight
